import Mathlib

/-!
Verification of the Evolvatron Optuna sweep scripts
(`optuna_sweep.py`, `optuna_sweep_rosenbrock.py`, `monitor_optuna.py`).

Reals are modelled by `ℚ` (the scripts only ever combine finite decimal
values), Python `str` by `List Char`, and the sentinel `float('-inf')`
returned on evaluation failure by `⊥ : WithBot ℚ`.
-/

namespace Evolvatron

/-- Python `int(q)` for a rational: truncation toward zero. -/
def pyInt (q : ℚ) : ℤ := if 0 ≤ q then ⌊q⌋ else ⌈q⌉

/-- The fitness decoding used by `monitor_optuna.py` lines 51–52 and
`optuna_sweep_rosenbrock.py` lines 196–197:
`primary = int(value) if value > 0 else 0; secondary = value - primary`. -/
def decode (value : ℚ) : ℤ × ℚ :=
  if 0 < value then (pyInt value, value - (pyInt value : ℚ)) else (0, value)

/-- The implicit encoding of the two sub-metrics into one scalar
(`solve_rate% + avg_fitness`, see the docstring of `objective` in
`optuna_sweep_rosenbrock.py`): `primary_pct + secondary`. -/
def encode (primaryPct : ℤ) (secondary : ℚ) : ℚ := (primaryPct : ℚ) + secondary

/-- The ASCII whitespace characters removed by Python `str.strip()`. -/
def isSp (c : Char) : Bool :=
  c = ' ' || c = '\t' || c = '\n' || c = '\r' || c = '\x0b' || c = '\x0c'

/-- Removal of trailing whitespace (the right half of Python `str.strip()`). -/
def stripR : List Char → List Char
  | [] => []
  | c :: cs =>
    match stripR cs with
    | [] => if isSp c then [] else [c]
    | d :: ds => c :: d :: ds

/-- Python `str.strip()`: drop leading then trailing whitespace. -/
def pyStrip (s : List Char) : List Char := stripR (s.dropWhile isSp)

/-- Python `str.split('\n')`: split on every newline; always nonempty. -/
def splitNl : List Char → List (List Char)
  | [] => [[]]
  | c :: cs =>
    if c = '\n' then [] :: splitNl cs
    else
      match splitNl cs with
      | [] => [[c]]
      | l :: ls => (c :: l) :: ls

/-- Line-level description of `dropWhile isSp`: leading whitespace-only
lines disappear and the first surviving line is left-stripped. -/
def lineDropW (ms : List (List Char)) : List (List Char) :=
  match ms.dropWhile (fun l => l.all isSp) with
  | [] => [[]]
  | l :: rest => l.dropWhile isSp :: rest

/-- Line-level description of `stripR`: trailing whitespace-only lines
disappear and the new last line is right-stripped. -/
def lineStripR : List (List Char) → List (List Char)
  | [] => [[]]
  | l :: ls =>
    if ls.all (fun m => m.all isSp) then
      if l.all isSp then [[]] else [stripR l]
    else l :: lineStripR ls

/-- The line the objective parses: `result.stdout.strip().split('\n')[-1]`
(`optuna_sweep.py` line 124, `optuna_sweep_rosenbrock.py` line 123). -/
def extractLine (stdout : List Char) : List Char :=
  (splitNl (pyStrip stdout)).getLastD []

/-- The spec's "last non-empty line" of standard output: the last line
containing a non-whitespace character, if any. -/
def lastNonEmptyLine (stdout : List Char) : Option (List Char) :=
  ((splitNl stdout).filter (fun l => !l.all isSp)).getLast?

/-- What the child process did: exceeded the time budget, or terminated
with an exit code and captured standard output / standard error. -/
inductive ProcResult where
  | timeout
  | exited (code : ℕ) (stdout stderr : List Char)
deriving DecidableEq

/-- The spec's trial-outcome taxonomy. -/
inductive TrialOutcome where
  | success (fitness : ℚ)
  | timedOut
  | processError (stderr : List Char)
  | parseError (stdout : List Char)
deriving DecidableEq

/-- Outcome classification implicit in the `try`/`except` structure of
`objective` (`optuna_sweep.py` lines 114–142): `subprocess.TimeoutExpired`
→ timed out; `subprocess.CalledProcessError` (raised by `check=True` on a
non-zero exit) → process error; `ValueError` from `float(...)` → parse
error; otherwise success with the parsed fitness. Python `float` is
treated as an oracle `parse`. -/
def classify (parse : List Char → Option ℚ) : ProcResult → TrialOutcome
  | .timeout => .timedOut
  | .exited code out err =>
    if code ≠ 0 then .processError err
    else
      match parse (extractLine out) with
      | some v => .success v
      | none => .parseError out

/-- The scalar handed back to the optimizer: the parsed fitness on
success, the sentinel `float('-inf')` (here `⊥`) on any failure. -/
def fitnessOf : TrialOutcome → WithBot ℚ
  | .success v => (v : WithBot ℚ)
  | _ => ⊥

/-- The value returned by `objective` (`optuna_sweep.py` lines 114–142,
identically `optuna_sweep_rosenbrock.py` lines 113–141), as a total
function: every `except` arm returns `float('-inf')`. -/
def objectiveResult (parse : List Char → Option ℚ) : ProcResult → WithBot ℚ
  | .timeout => ⊥
  | .exited code out _ =>
    if code ≠ 0 then ⊥
    else
      match parse (extractLine out) with
      | some v => (v : WithBot ℚ)
      | none => ⊥

/-- The trial states recorded in the optimization library's store. -/
inductive TrialState where
  | complete
  | running
  | fail
deriving DecidableEq

/-- One persisted trial record as read back by the monitor: trial
number, state, objective value (`⊥` encodes `float('-inf')`), and
start/completion times in seconds. -/
structure TrialRec where
  number : ℕ
  state : TrialState
  value : WithBot ℚ
  tStart : ℚ
  tComplete : ℚ
deriving DecidableEq

/-- How the store records an evaluated trial (the spec's §4.4 `record`
interface): the objective always returns a float — the parsed fitness or
the sentinel (`optuna_sweep.py` lines 130–142) — and a trial whose
objective returned normally is stored in the COMPLETE state with that
value. -/
def recordOf (n : ℕ) (t0 t1 : ℚ) (o : TrialOutcome) : TrialRec :=
  ⟨n, .complete, fitnessOf o, t0, t1⟩

/-- `monitor_optuna.py` line 41: the trials counted as completed are
those whose state is COMPLETE. -/
def monitorCompleted (trials : List TrialRec) : List TrialRec :=
  trials.filter (fun t => t.state == .complete)

/-- One step of the stable sort behind Python
`sorted(completed_trials, key=lambda t: t.value, reverse=True)`
(`monitor_optuna.py` line 60): a record moves ahead only of strictly
smaller values, so equal values keep their original order. -/
def insertDesc (x : TrialRec) : List TrialRec → List TrialRec
  | [] => [x]
  | y :: ys => if y.value ≤ x.value then x :: y :: ys else y :: insertDesc x ys

/-- Python's stable sort by value, descending. -/
def sortDesc : List TrialRec → List TrialRec
  | [] => []
  | x :: xs => insertDesc x (sortDesc xs)

/-- `monitor_optuna.py` line 60: the top five completed trials. -/
def topTrials (completed : List TrialRec) : List TrialRec :=
  (sortDesc completed).take 5

/-- The library's `study.best_trial` (`monitor_optuna.py` line 47): the
completed trial attaining the maximal value, earliest number on ties. -/
def bestTrial (completed : List TrialRec) : Option TrialRec :=
  (sortDesc completed).head?

/-- Python `completed_trials[-10:]` (`monitor_optuna.py` line 68). -/
def lastTen (l : List TrialRec) : List TrialRec := l.drop (l.length - 10)

/-- `monitor_optuna.py` line 70: mean wall-clock seconds per trial over
a window of records. -/
def meanDuration (l : List TrialRec) : ℚ :=
  (l.map (fun t => t.tComplete - t.tStart)).sum / l.length

/-- `monitor_optuna.py` lines 67–76: the ETA in seconds, computed only
when more than one trial has completed, over the window of the last ten
completed records, against the hard-coded target of 200 trials. -/
def monitorEta (completed : List TrialRec) : Option ℚ :=
  if 1 < completed.length then
    if 1 < (lastTen completed).length then
      some ((200 - (completed.length : ℚ)) * meanDuration (lastTen completed))
    else none
  else none

/-- `monitor_optuna.py` line 74: percent complete against the hard-coded
200-trial target, `len(completed_trials)*100//200`. -/
def monitorPercent (completedCount : ℕ) : ℕ := completedCount * 100 / 200

/-- `monitor_optuna.py` line 71:
`remaining = 200 - len(completed_trials)`. -/
def monitorRemaining (completedCount : ℕ) : ℤ := 200 - (completedCount : ℤ)

/-- The spec's ETA contract (§4.3), with the monitor's fixed target of
200: undefined for fewer than two completed records, otherwise
`remaining × mean duration` over the trailing window of at most ten. -/
def etaSpec (completed : List TrialRec) : Option ℚ :=
  if 2 ≤ completed.length then
    some ((200 - (completed.length : ℚ)) * meanDuration (lastTen completed))
  else none

/-- The intended order of the monitor's top-k listing: strictly larger
fitness first, ties by ascending trial number (first seen wins). -/
def rankedBefore (a b : TrialRec) : Prop :=
  b.value < a.value ∨ (a.value = b.value ∧ a.number < b.number)

/-- The worked example of the spec's testable properties: completed
trials numbered 0–4 with fitness values 10, 55.2, 3, 55.2 and 90. -/
def exampleTrials : List TrialRec :=
  [⟨0, .complete, ((10 : ℚ) : WithBot ℚ), 0, 1⟩,
   ⟨1, .complete, ((55.2 : ℚ) : WithBot ℚ), 1, 2⟩,
   ⟨2, .complete, ((3 : ℚ) : WithBot ℚ), 2, 3⟩,
   ⟨3, .complete, ((55.2 : ℚ) : WithBot ℚ), 3, 4⟩,
   ⟨4, .complete, ((90 : ℚ) : WithBot ℚ), 4, 5⟩]

/-- The kinds of parameter suggestion the objective requests. -/
inductive SuggestKind where
  | intR (lo hi : ℕ)
  | floatR (lo hi : ℚ)
  | catB (choices : List Bool)
deriving DecidableEq

/-- One `trial.suggest_*` call: parameter name plus declared range. -/
structure SuggestCall where
  name : String
  kind : SuggestKind
deriving DecidableEq

/-- The ordered trace of `trial.suggest_*` calls made by `objective` in
`optuna_sweep.py` lines 35–77, given the sampler's value for each
already sampled integer parameter; `species_count // 3` is ℕ floor
division. -/
def objectiveCalls (sampler : String → ℕ) : List SuggestCall :=
  [⟨"species_count", .intR 4 30⟩,
   ⟨"individuals_per_species", .intR 20 100⟩,
   ⟨"min_species_count", .intR 2 (max 2 (sampler "species_count" / 3))⟩,
   ⟨"elites", .intR 1 4⟩,
   ⟨"tournament_size", .intR 4 32⟩,
   ⟨"parent_pool_percentage", .floatR 0.5 1.0⟩,
   ⟨"grace_generations", .intR 0 3⟩,
   ⟨"stagnation_threshold", .intR 3 15⟩,
   ⟨"species_diversity_threshold", .floatR 0.01 0.20⟩,
   ⟨"relative_performance_threshold", .floatR 0.3 0.9⟩,
   ⟨"weight_jitter", .floatR 0.8 1.0⟩,
   ⟨"weight_jitter_stddev", .floatR 0.1 0.5⟩,
   ⟨"weight_reset", .floatR 0.0 0.2⟩,
   ⟨"weight_l1_shrink", .floatR 0.0 0.4⟩,
   ⟨"l1_shrink_factor", .floatR 0.85 0.95⟩,
   ⟨"activation_swap", .floatR 0.0 0.20⟩,
   ⟨"node_param_mutate", .floatR 0.0 0.1⟩,
   ⟨"node_param_stddev", .floatR 0.05 0.2⟩,
   ⟨"edge_add", .floatR 0.0 0.15⟩,
   ⟨"edge_delete_random", .floatR 0.0 0.05⟩,
   ⟨"edge_split", .floatR 0.0 0.05⟩,
   ⟨"edge_redirect", .floatR 0.0 0.10⟩,
   ⟨"edge_swap", .floatR 0.0 0.05⟩,
   ⟨"weak_edge_pruning_enabled", .catB [true, false]⟩,
   ⟨"weak_edge_pruning_threshold", .floatR 0.001 0.05⟩,
   ⟨"weak_edge_pruning_base_rate", .floatR 0.5 0.9⟩,
   ⟨"weak_edge_pruning_on_birth", .catB [true, false]⟩,
   ⟨"weak_edge_pruning_during_evolution", .catB [true, false]⟩]

end Evolvatron

namespace Evolvatron

theorem pyInt_of_nonneg (q : ℚ) (h : 0 ≤ q) : pyInt q = ⌊q⌋ := by
  simp [pyInt, h]

theorem decode_pos (v : ℚ) (h : 0 < v) : decode v = (⌊v⌋, v - (⌊v⌋ : ℚ)) := by
  simp [decode, h, pyInt_of_nonneg v h.le]

theorem decode_nonpos (v : ℚ) (h : v ≤ 0) : decode v = (0, v) := by
  have : ¬ 0 < v := not_lt.mpr h
  simp [decode, this]

/-- C1: The claim that `decode (encode pct secondary) = (pct, secondary)`
for every `pct ∈ [0,100]` and every `secondary` with `|secondary| < 1`
fails on the code: at `pct = 60`, `secondary = -1/20` (the spec's own
example `59.95`) decoding returns `(59, 19/20)`, not `(60, -1/20)`. -/
theorem decode_encode_not_inverse :
    decode (encode 60 (-(1/20))) ≠ (60, -(1/20)) := by
  have h1 : encode 60 (-(1/20)) = 1199/20 := by rw [encode]; norm_num
  have h2 : decode (1199/20) = (59, 19/20) := by
    rw [decode_pos _ (by norm_num)]
    have : ⌊(1199/20 : ℚ)⌋ = 59 := by
      rw [Int.floor_eq_iff]
      norm_num
    rw [this]
    norm_num
  rw [h1, h2]
  intro h
  injection h with ha hb
  exact absurd ha (by norm_num)

/-- C1 (amended): round-tripping recovers the pair exactly when
`0 ≤ secondary < 1` (any `pct ∈ [0,100]`), or when `pct = 0` and
`-1 < secondary ≤ 0`; for `pct ≥ 1` and `-1 < secondary < 0` the decoded
pair is `(pct - 1, secondary + 1)` instead. -/
theorem decode_encode_cases :
    (∀ (p : ℤ) (s : ℚ), 0 ≤ p → p ≤ 100 → 0 ≤ s → s < 1 →
      decode (encode p s) = (p, s)) ∧
    (∀ s : ℚ, -1 < s → s ≤ 0 → decode (encode 0 s) = (0, s)) ∧
    (∀ (p : ℤ) (s : ℚ), 1 ≤ p → -1 < s → s < 0 →
      decode (encode p s) = (p - 1, s + 1)) := by
  refine ⟨?_, ?_, ?_⟩
  · intro p s hp _ hs0 hs1
    rcases lt_or_eq_of_le (by
        have : (0:ℚ) ≤ (p:ℚ) := by exact_mod_cast hp
        linarith : (0:ℚ) ≤ (p:ℚ) + s) with hpos | hzero
    · have hfl : ⌊(p:ℚ) + s⌋ = p := by
        rw [Int.floor_int_add]
        have : ⌊s⌋ = 0 := by
          rw [Int.floor_eq_iff]
          push_cast
          exact ⟨hs0, by linarith⟩
        omega
      rw [encode, decode_pos _ hpos, hfl]
      have hsub : (p:ℚ) + s - (p:ℚ) = s := by ring
      rw [hsub]
    · have hple : (p:ℚ) + s ≤ 0 := le_of_eq hzero.symm
      rw [encode, decode_nonpos _ hple]
      have hs : s = 0 := by
        by_contra hne
        have hsp : 0 < s := lt_of_le_of_ne hs0 (Ne.symm hne)
        have hq : (p:ℚ) < 0 := by linarith
        exact absurd (by exact_mod_cast hq : p < 0) (not_lt.mpr hp)
      have hp0 : p = 0 := by
        have : (p:ℚ) = 0 := by rw [hs] at hzero; linarith
        exact_mod_cast this
      rw [hs, hp0]
      have : (0:ℤ) + (0:ℚ) = 0 := by norm_num
      simp
  · intro s _ hs
    have h0 : encode 0 s ≤ 0 := by rw [encode]; push_cast; linarith
    rw [decode_nonpos _ h0, encode]
    push_cast
    rw [zero_add]
  · intro p s hp hs1 hs0
    have hpos : 0 < (p:ℚ) + s := by
      have : (1:ℚ) ≤ (p:ℚ) := by exact_mod_cast hp
      linarith
    have hfl : ⌊(p:ℚ) + s⌋ = p - 1 := by
      rw [Int.floor_int_add]
      have : ⌊s⌋ = -1 := by
        rw [Int.floor_eq_iff]
        push_cast
        exact ⟨by linarith, by linarith⟩
      omega
    rw [encode, decode_pos _ hpos, hfl]
    have hsub : (p:ℚ) + s - ((p - 1 : ℤ) : ℚ) = s + 1 := by push_cast; ring
    rw [hsub]

/-- C1 amended witness. -/
theorem decode_encode_cases_witness :
    decode (encode 3 (1/2)) = (3, 1/2) ∧
    decode (encode 0 (-(1/2))) = (0, -(1/2)) ∧
    decode (encode 7 (-(1/4))) = (6, 3/4) :=
  ⟨decode_encode_cases.1 3 (1/2) (by norm_num) (by norm_num) (by norm_num) (by norm_num),
   decode_encode_cases.2.1 (-(1/2)) (by norm_num) (by norm_num),
   by
    have h := decode_encode_cases.2.2 7 (-(1/4)) (by norm_num) (by norm_num) (by norm_num)
    rw [h]; norm_num⟩

/-- C2: `decode` returns `(⌊value⌋, value - ⌊value⌋)` when `value > 0`
and `(0, value)` when `value ≤ 0`; in particular
`decode 0 = (0, 0)`, `decode (-0.37) = (0, -0.37)`,
`decode 59.95 = (59, 0.95)`. -/
theorem decode_spec (v : ℚ) :
    (0 < v → decode v = (⌊v⌋, v - (⌊v⌋ : ℚ))) ∧
    (v ≤ 0 → decode v = (0, v)) ∧
    decode 0 = (0, 0) ∧
    decode (-0.37) = (0, -0.37) ∧
    decode 59.95 = (59, 0.95) := by
  refine ⟨decode_pos v, decode_nonpos v, decode_nonpos 0 le_rfl, ?_, ?_⟩
  · rw [decode_nonpos (-0.37) (by norm_num)]
  · rw [decode_pos 59.95 (by norm_num)]
    have hfl : ⌊(59.95 : ℚ)⌋ = 59 := by
      rw [Int.floor_eq_iff]
      norm_num
    rw [hfl]
    norm_num

/-- C2 witness. -/
theorem decode_spec_witness :
    decode (11/2) = (5, 1/2) ∧ decode (-(3/4)) = (0, -(3/4)) :=
  ⟨by rw [(decode_spec (11/2)).1 (by norm_num)]; norm_num,
   (decode_spec (-(3/4))).2.1 (by norm_num)⟩

theorem splitNl_ne_nil (s : List Char) : splitNl s ≠ [] := by
  cases s with
  | nil => simp [splitNl]
  | cons c cs =>
    simp only [splitNl]
    split
    · simp
    · cases h : splitNl cs <;> simp

theorem stripR_eq_nil_iff (l : List Char) : stripR l = [] ↔ l.all isSp = true := by
  induction l with
  | nil => simp [stripR]
  | cons c cs ih =>
    cases h : stripR cs with
    | nil =>
      have hcs : cs.all isSp = true := ih.mp h
      by_cases hc : isSp c
      · simp [stripR, h, hc, hcs]
      · simp [stripR, h, hc, hcs]
    | cons d ds =>
      have h1 : stripR (c :: cs) = c :: d :: ds := by simp [stripR, h]
      have hcs : cs.all isSp = false := by
        cases hval : cs.all isSp
        · rfl
        · exact absurd (ih.mpr hval) (by rw [h]; simp)
      rw [h1]
      simp [List.all_cons, hcs]

theorem stripR_cons_of_ne_nil (c : Char) (l : List Char) (h : stripR l ≠ []) :
    stripR (c :: l) = c :: stripR l := by
  cases hl : stripR l with
  | nil => exact absurd hl h
  | cons d ds => simp [stripR, hl]

theorem dropWhile_head_false {α} (p : α → Bool) (l : List α) (x : α) (xs : List α)
    (h : l.dropWhile p = x :: xs) : p x = false := by
  induction l with
  | nil => simp at h
  | cons a as ih =>
    rw [List.dropWhile_cons] at h
    split at h
    · exact ih h
    · next hp => cases h; simpa using hp

theorem dropWhile_all_eq (l : List Char) :
    (l.dropWhile isSp).all isSp = l.all isSp := by
  induction l with
  | nil => rfl
  | cons c cs ih =>
    by_cases h : isSp c
    · simp [List.dropWhile_cons, h, ih]
    · simp [List.dropWhile_cons, h]

theorem stripR_idem (l : List Char) : stripR (stripR l) = stripR l := by
  induction l with
  | nil => rfl
  | cons c cs ih =>
    cases h : stripR cs with
    | nil =>
      by_cases hc : isSp c
      · simp [stripR, h, hc]
      · simp [stripR, h, hc]
    | cons d ds =>
      have hfix : stripR (d :: ds) = d :: ds := h ▸ ih
      have h1 : stripR (c :: cs) = c :: d :: ds := by simp [stripR, h]
      rw [h1, stripR_cons_of_ne_nil c (d :: ds) (by rw [hfix]; simp), hfix]

theorem dropWhile_stripR_comm (l : List Char) :
    (stripR l).dropWhile isSp = stripR (l.dropWhile isSp) := by
  induction l with
  | nil => rfl
  | cons c cs ih =>
    by_cases hc : isSp c
    · cases h : stripR cs with
      | nil =>
        have hcs : cs.all isSp = true := (stripR_eq_nil_iff cs).mp h
        have h2 : stripR (cs.dropWhile isSp) = [] := by
          rw [stripR_eq_nil_iff, dropWhile_all_eq]; exact hcs
        simp [stripR, h, hc, List.dropWhile_cons, h2]
      | cons d ds =>
        have h1 : stripR (c :: cs) = c :: d :: ds := by simp [stripR, h]
        rw [h1, List.dropWhile_cons, if_pos hc, ← h, ih,
          List.dropWhile_cons, if_pos hc]
    · cases h : stripR cs with
      | nil => simp [stripR, h, hc, List.dropWhile_cons]
      | cons d ds => simp [stripR, h, hc, List.dropWhile_cons]

theorem pyStrip_stripR (l : List Char) : pyStrip (stripR l) = pyStrip l := by
  rw [pyStrip, pyStrip, dropWhile_stripR_comm, stripR_idem]

theorem pyStrip_dropWhile (l : List Char) :
    pyStrip (l.dropWhile isSp) = pyStrip l := by
  rw [pyStrip, pyStrip, List.dropWhile_idempotent]

theorem isSp_nl : isSp '\n' = true := by decide

theorem splitNl_cons_nl (cs : List Char) :
    splitNl ('\n' :: cs) = [] :: splitNl cs := by
  simp [splitNl]

theorem splitNl_cons_ne (c : Char) (cs : List Char) (hn : c ≠ '\n')
    (l : List Char) (ls : List (List Char)) (hsc : splitNl cs = l :: ls) :
    splitNl (c :: cs) = (c :: l) :: ls := by
  simp [splitNl, hn, hsc]

theorem splitNl_all_sp (s : List Char) :
    (splitNl s).all (fun l => l.all isSp) = s.all isSp := by
  induction s with
  | nil => rfl
  | cons c cs ih =>
    by_cases hn : c = '\n'
    · subst hn
      rw [splitNl_cons_nl, List.all_cons, List.all_cons, ih, isSp_nl]
      rfl
    · cases hsc : splitNl cs with
      | nil => exact absurd hsc (splitNl_ne_nil cs)
      | cons l ls =>
        rw [splitNl_cons_ne c cs hn l ls hsc, List.all_cons, List.all_cons,
          List.all_cons]
        rw [hsc, List.all_cons] at ih
        rw [← ih, Bool.and_assoc]

theorem lineDropW_cons_sp (l : List Char) (ms : List (List Char))
    (h : l.all isSp = true) : lineDropW (l :: ms) = lineDropW ms := by
  simp [lineDropW, List.dropWhile_cons, h]

theorem lineDropW_cons_good (l : List Char) (ms : List (List Char))
    (h : l.all isSp = false) :
    lineDropW (l :: ms) = l.dropWhile isSp :: ms := by
  simp [lineDropW, List.dropWhile_cons, h]

theorem splitNl_dropWhile (s : List Char) :
    splitNl (s.dropWhile isSp) = lineDropW (splitNl s) := by
  induction s with
  | nil => rfl
  | cons c cs ih =>
    cases hc : isSp c with
    | true =>
      rw [List.dropWhile_cons, if_pos hc, ih]
      by_cases hn : c = '\n'
      · subst hn
        rw [splitNl_cons_nl, lineDropW_cons_sp _ _ (by rfl)]
      · cases hsc : splitNl cs with
        | nil => exact absurd hsc (splitNl_ne_nil cs)
        | cons l ls =>
          rw [splitNl_cons_ne c cs hn l ls hsc]
          cases hl : l.all isSp with
          | true =>
            rw [lineDropW_cons_sp l ls hl,
              lineDropW_cons_sp (c :: l) ls (by simp [List.all_cons, hc, hl])]
          | false =>
            rw [lineDropW_cons_good l ls hl,
              lineDropW_cons_good (c :: l) ls (by simp [List.all_cons, hl]),
              List.dropWhile_cons, if_pos hc]
    | false =>
      have hn : c ≠ '\n' := fun hh => by rw [hh, isSp_nl] at hc; cases hc
      rw [List.dropWhile_cons, if_neg (by simp [hc])]
      cases hsc : splitNl cs with
      | nil => exact absurd hsc (splitNl_ne_nil cs)
      | cons l ls =>
        rw [splitNl_cons_ne c cs hn l ls hsc,
          lineDropW_cons_good _ _ (by rw [List.all_cons, hc]; rfl),
          List.dropWhile_cons, if_neg (by simp [hc])]

theorem lineStripR_cons_eq (l : List Char) (ls : List (List Char)) :
    lineStripR (l :: ls) =
      if ls.all (fun m => m.all isSp) then
        if l.all isSp then [[]] else [stripR l]
      else l :: lineStripR ls := rfl

theorem lineStripR_cons_of_rest (l : List Char) (ls : List (List Char))
    (h : ls.all (fun m => m.all isSp) = false) :
    lineStripR (l :: ls) = l :: lineStripR ls := by
  rw [lineStripR_cons_eq, if_neg (by simp [h])]

theorem lineStripR_cons_last (l : List Char) (ls : List (List Char))
    (hls : ls.all (fun m => m.all isSp) = true) (hl : l.all isSp = false) :
    lineStripR (l :: ls) = [stripR l] := by
  rw [lineStripR_cons_eq, if_pos hls, if_neg (by simp [hl])]

theorem lineStripR_ne_nil (ms : List (List Char)) : lineStripR ms ≠ [] := by
  cases ms with
  | nil => simp [lineStripR]
  | cons l ls =>
    rw [lineStripR_cons_eq]
    split
    · split <;> simp
    · simp

theorem lineStripR_all_sp (ms : List (List Char))
    (h : ms.all (fun l => l.all isSp) = true) : lineStripR ms = [[]] := by
  cases ms with
  | nil => rfl
  | cons l ls =>
    rw [List.all_cons] at h
    have h1 := (Bool.and_eq_true _ _ ▸ h).1
    have h2 := (Bool.and_eq_true _ _ ▸ h).2
    rw [lineStripR_cons_eq, if_pos h2, if_pos h1]

theorem splitNl_stripR (s : List Char) :
    splitNl (stripR s) = lineStripR (splitNl s) := by
  induction s with
  | nil => rfl
  | cons c cs ih =>
    cases hr : stripR cs with
    | nil =>
      have hcs : cs.all isSp = true := (stripR_eq_nil_iff cs).mp hr
      cases hc : isSp c with
      | true =>
        have h1 : stripR (c :: cs) = [] := by simp [stripR, hr, hc]
        rw [h1]
        have hall : (splitNl (c :: cs)).all (fun l => l.all isSp) = true := by
          rw [splitNl_all_sp, List.all_cons, hc, hcs]; rfl
        rw [lineStripR_all_sp _ hall]
        rfl
      | false =>
        have hn : c ≠ '\n' := fun hh => by rw [hh, isSp_nl] at hc; cases hc
        have h1 : stripR (c :: cs) = [c] := by simp [stripR, hr, hc]
        rw [h1]
        cases hsc : splitNl cs with
        | nil => exact absurd hsc (splitNl_ne_nil cs)
        | cons l ls =>
          have hlines : (l :: ls).all (fun m => m.all isSp) = true := by
            rw [← hsc, splitNl_all_sp]; exact hcs
          rw [List.all_cons] at hlines
          have hl := (Bool.and_eq_true _ _ ▸ hlines).1
          have hls := (Bool.and_eq_true _ _ ▸ hlines).2
          rw [splitNl_cons_ne c cs hn l ls hsc]
          have hcl : (c :: l).all isSp = false := by
            rw [List.all_cons, hc]; rfl
          have hsl : stripR l = [] := (stripR_eq_nil_iff l).mpr hl
          have hscl : stripR (c :: l) = [c] := by simp [stripR, hsl, hc]
          rw [lineStripR_cons_last (c :: l) ls hls hcl, hscl]
          exact splitNl_cons_ne c [] hn [] [] rfl
    | cons d ds =>
      have h1 : stripR (c :: cs) = c :: d :: ds := by simp [stripR, hr]
      have hcs : cs.all isSp = false := by
        cases hval : cs.all isSp
        · rfl
        · rw [(stripR_eq_nil_iff cs).mpr hval] at hr; cases hr
      have hlines : (splitNl cs).all (fun l => l.all isSp) = false := by
        rw [splitNl_all_sp]; exact hcs
      rw [h1]
      by_cases hn : c = '\n'
      · subst hn
        rw [splitNl_cons_nl, splitNl_cons_nl, ← hr, ih]
        cases hsc : splitNl cs with
        | nil => exact absurd hsc (splitNl_ne_nil cs)
        | cons l ls =>
          rw [hsc] at hlines
          rw [lineStripR_cons_of_rest [] (l :: ls) hlines]
      · cases hsc : splitNl cs with
        | nil => exact absurd hsc (splitNl_ne_nil cs)
        | cons l ls =>
          rw [splitNl_cons_ne c cs hn l ls hsc]
          rw [hsc] at hlines
          have hsd : splitNl (d :: ds) = lineStripR (l :: ls) := by
            rw [← hsc, ← hr, ih]
          cases hls : ls.all (fun m => m.all isSp) with
          | true =>
            have hl : l.all isSp = false := by
              rw [List.all_cons, hls] at hlines
              cases hval : l.all isSp
              · rfl
              · rw [hval] at hlines; cases hlines
            have hcl : (c :: l).all isSp = false := by
              rw [List.all_cons, hl]; simp
            rw [lineStripR_cons_last l ls hls hl] at hsd
            have hsrl : stripR l ≠ [] := by
              rw [Ne, stripR_eq_nil_iff, hl]; simp
            rw [lineStripR_cons_last (c :: l) ls hls hcl]
            rw [stripR_cons_of_ne_nil c l hsrl]
            cases hsd' : splitNl (d :: ds) with
            | nil => exact absurd hsd' (splitNl_ne_nil _)
            | cons e es =>
              rw [hsd'] at hsd
              cases hsd
              rw [splitNl_cons_ne c (d :: ds) hn _ _ hsd']
          | false =>
            rw [lineStripR_cons_of_rest l ls hls] at hsd
            rw [lineStripR_cons_of_rest (c :: l) ls hls]
            rw [splitNl_cons_ne c (d :: ds) hn l (lineStripR ls) hsd]

theorem pyStrip_idem (t : List Char) : pyStrip (pyStrip t) = pyStrip t := by
  show pyStrip (stripR (t.dropWhile isSp)) = pyStrip t
  rw [pyStrip_stripR, pyStrip_dropWhile]

theorem getLastD_irrel {α : Type} (l : List α) (d e : α) (h : l ≠ []) :
    l.getLastD d = l.getLastD e := by
  cases l with
  | nil => exact absurd rfl h
  | cons a t => rw [List.getLastD_cons, List.getLastD_cons]

theorem getLast?_cons_of_ne_nil {α : Type} (a : α) (l : List α) (h : l ≠ []) :
    (a :: l).getLast? = l.getLast? := by
  cases l with
  | nil => exact absurd rfl h
  | cons x xs => exact List.getLast?_cons_cons

theorem lineStripR_getLast (ms : List (List Char))
    (h : ms.all (fun l => l.all isSp) = false) :
    pyStrip ((lineStripR ms).getLastD []) =
      pyStrip (((ms.filter (fun l => !l.all isSp)).getLast?).getD []) := by
  induction ms with
  | nil => cases h
  | cons l ls ih =>
    rw [List.all_cons] at h
    cases hls : ls.all (fun m => m.all isSp) with
    | true =>
      have hl : l.all isSp = false := by
        cases hval : l.all isSp
        · rfl
        · rw [hval, hls] at h; cases h
      rw [lineStripR_cons_last l ls hls hl]
      have hfls : ls.filter (fun m => !m.all isSp) = [] := by
        rw [List.filter_eq_nil_iff]
        intro m hm
        have hmsp : m.all isSp = true := List.all_eq_true.mp hls m hm
        simp [hmsp]
      rw [List.filter_cons_of_pos (by simp [hl]), hfls]
      show pyStrip (stripR l) = pyStrip l
      exact pyStrip_stripR l
    | false =>
      rw [lineStripR_cons_of_rest l ls hls, List.getLastD_cons,
        getLastD_irrel _ l [] (lineStripR_ne_nil ls), ih hls]
      obtain ⟨m, hm, hmf⟩ := List.all_eq_false.mp hls
      have hmf' : m.all isSp = false := by
        cases hval : m.all isSp
        · rfl
        · exact absurd hval hmf
      have hfne : ls.filter (fun x => !x.all isSp) ≠ [] :=
        List.ne_nil_of_mem (List.mem_filter.mpr ⟨hm, by simp [hmf']⟩)
      cases hlf : l.all isSp with
      | true => rw [List.filter_cons_of_neg (by simp [hlf])]
      | false =>
        rw [List.filter_cons_of_pos (by simp [hlf]),
          getLast?_cons_of_ne_nil _ _ hfne]

theorem extractLine_strip_eq (s : List Char) :
    pyStrip (extractLine s) = pyStrip ((lastNonEmptyLine s).getD []) := by
  cases hall : s.all isSp with
  | true =>
    have h1 : pyStrip s = [] := by
      rw [pyStrip, stripR_eq_nil_iff, dropWhile_all_eq]; exact hall
    have h2 : (splitNl s).filter (fun l => !l.all isSp) = [] := by
      rw [List.filter_eq_nil_iff]
      intro m hm
      have hmsp : m.all isSp = true :=
        List.all_eq_true.mp (by rw [splitNl_all_sp]; exact hall) m hm
      simp [hmsp]
    rw [extractLine, h1, lastNonEmptyLine, h2]
    rfl
  | false =>
    have hx : extractLine s = (lineStripR (lineDropW (splitNl s))).getLastD [] := by
      rw [extractLine, pyStrip, splitNl_stripR, splitNl_dropWhile]
    rw [hx, lastNonEmptyLine]
    cases hdw : (splitNl s).dropWhile (fun l => l.all isSp) with
    | nil =>
      exfalso
      have hallsp : (splitNl s).all (fun l => l.all isSp) = true := by
        rw [List.all_eq_true]
        intro m hm
        exact List.dropWhile_eq_nil_iff.mp hdw m hm
      rw [splitNl_all_sp, hall] at hallsp
      cases hallsp
    | cons l0 rest =>
      have hl0 : l0.all isSp = false :=
        dropWhile_head_false (fun l => l.all isSp) (splitNl s) l0 rest hdw
      have hld : lineDropW (splitNl s) = l0.dropWhile isSp :: rest := by
        rw [lineDropW, hdw]
      rw [hld]
      have hl0' : (l0.dropWhile isSp).all isSp = false := by
        rw [dropWhile_all_eq]; exact hl0
      rw [lineStripR_getLast _ (by rw [List.all_cons, hl0']; rfl)]
      have hdecomp : splitNl s =
          (splitNl s).takeWhile (fun l => l.all isSp) ++ l0 :: rest := by
        rw [← hdw, List.takeWhile_append_dropWhile]
      have htw : ((splitNl s).takeWhile (fun l => l.all isSp)).filter
          (fun l => !l.all isSp) = [] := by
        rw [List.filter_eq_nil_iff]
        intro m hm
        have hmsp := List.mem_takeWhile_imp hm
        simp [hmsp]
      have hfil : (splitNl s).filter (fun l => !l.all isSp) =
          (l0 :: rest).filter (fun l => !l.all isSp) := by
        rw [hdecomp, List.filter_append, htw, List.nil_append]
      rw [hfil, List.filter_cons_of_pos (by simp [hl0']),
        List.filter_cons_of_pos (by simp [hl0])]
      cases hfr : rest.filter (fun l => !l.all isSp) with
      | nil =>
        show pyStrip (l0.dropWhile isSp) = pyStrip l0
        exact pyStrip_dropWhile l0
      | cons m ms' =>
        rw [getLast?_cons_of_ne_nil (l0.dropWhile isSp) (m :: ms') (by simp),
          getLast?_cons_of_ne_nil l0 (m :: ms') (by simp)]

theorem objectiveResult_eq_fitnessOf_classify
    (parse : List Char → Option ℚ) (r : ProcResult) :
    objectiveResult parse r = fitnessOf (classify parse r) := by
  cases r with
  | timeout => rfl
  | exited code out err =>
    by_cases h : code = 0
    · subst h
      simp only [objectiveResult, classify, if_neg (by omega : ¬ (0:ℕ) ≠ 0)]
      cases parse (extractLine out) <;> rfl
    · simp only [objectiveResult, classify, if_pos h]
      rfl

/-- C3: each of the three failure kinds — timeout, non-zero exit status,
unparseable output — makes the objective return the sentinel worst
fitness `⊥` (`float('-inf')`), and a timed-out trial never yields a
parsed partial value (its result is `⊥` for every parser). -/
theorem objective_failure_sentinel (parse : List Char → Option ℚ) :
    objectiveResult parse .timeout = ⊥ ∧
    (∀ code out err, code ≠ 0 → objectiveResult parse (.exited code out err) = ⊥) ∧
    (∀ out err, parse (extractLine out) = none →
      objectiveResult parse (.exited 0 out err) = ⊥) := by
  refine ⟨rfl, ?_, ?_⟩
  · intro code out err h
    simp only [objectiveResult, if_pos h]
  · intro out err h
    simp only [objectiveResult, if_neg (by omega : ¬ (0:ℕ) ≠ 0), h]

/-- C3 witness. -/
theorem objective_failure_sentinel_witness :
    objectiveResult (fun _ => none) .timeout = ⊥ ∧
    objectiveResult (fun _ => none) (.exited 1 [] []) = ⊥ ∧
    objectiveResult (fun _ => none) (.exited 0 [] []) = ⊥ :=
  ⟨(objective_failure_sentinel (fun _ => none)).1,
   (objective_failure_sentinel (fun _ => none)).2.1 1 [] [] (by decide),
   (objective_failure_sentinel (fun _ => none)).2.2 [] [] rfl⟩

/-- C4: a child process terminating with a non-zero exit status is
classified as a process error (worst fitness `⊥`) and never as a
success, even when its standard output parses as a number. -/
theorem nonzero_exit_never_success (parse : List Char → Option ℚ)
    (code : ℕ) (out err : List Char) (h : code ≠ 0) :
    classify parse (.exited code out err) = .processError err ∧
    (∀ v, classify parse (.exited code out err) ≠ .success v) ∧
    objectiveResult parse (.exited code out err) = ⊥ := by
  have hc : classify parse (.exited code out err) = .processError err := by
    simp only [classify, if_pos h]
  refine ⟨hc, ?_, ?_⟩
  · intro v hv
    rw [hc] at hv
    exact TrialOutcome.noConfusion hv
  · simp only [objectiveResult, if_pos h]

/-- C5: for a zero-exit, in-budget child process the returned fitness is
the parsed value of the last non-empty line of the captured standard
output, regardless of preceding logging-noise lines; if that line does
not parse — including empty or whitespace-only stdout — the result is
the worst-fitness sentinel. `parse` models Python `float`, which ignores
surrounding whitespace and rejects the empty string. -/
theorem success_parses_last_nonempty_line
    (parse : List Char → Option ℚ)
    (hstrip : ∀ t, parse (pyStrip t) = parse t)
    (hempty : parse [] = none)
    (out err : List Char) :
    objectiveResult parse (.exited 0 out err) =
      match lastNonEmptyLine out with
      | some l =>
        match parse l with
        | some v => (v : WithBot ℚ)
        | none => ⊥
      | none => ⊥ := by
  have hkey : parse (extractLine out) =
      match lastNonEmptyLine out with
      | some l => parse l
      | none => none := by
    rw [← hstrip (extractLine out), extractLine_strip_eq out]
    cases h : lastNonEmptyLine out with
    | none =>
      show parse (pyStrip []) = none
      rw [hstrip]
      exact hempty
    | some l =>
      show parse (pyStrip l) = parse l
      exact hstrip l
  rw [show objectiveResult parse (.exited 0 out err) =
      (match parse (extractLine out) with
       | some v => (v : WithBot ℚ)
       | none => ⊥) from by
    simp only [objectiveResult, if_neg (by omega : ¬ (0:ℕ) ≠ 0)]]
  rw [hkey]
  cases lastNonEmptyLine out <;> rfl

/-- C5 witness: a parser recognising 42 up to surrounding whitespace;
the noise line and the trailing whitespace-only line are ignored. -/
theorem success_parses_last_nonempty_line_witness :
    objectiveResult (fun t => if pyStrip t = ['4', '2'] then some 42 else none)
      (.exited 0 ("noise\n42\n  ".toList) []) = ((42 : ℚ) : WithBot ℚ) := by
  have h := success_parses_last_nonempty_line
    (fun t => if pyStrip t = ['4', '2'] then some 42 else none)
    (fun t => by
      show (if pyStrip (pyStrip t) = ['4', '2'] then some (42 : ℚ) else none) =
        (if pyStrip t = ['4', '2'] then some 42 else none)
      rw [pyStrip_idem])
    (by decide)
    ("noise\n42\n  ".toList) []
  rw [h]
  rfl

/-- C4 witness: exit code 1 with a stdout whose last line parses as 42
is still a process error with sentinel fitness. -/
theorem nonzero_exit_never_success_witness :
    (fun s => if s = ['4', '2'] then some (42:ℚ) else none)
        (extractLine ('4' :: '2' :: [])) = some 42 ∧
    classify (fun s => if s = ['4', '2'] then some (42:ℚ) else none)
        (.exited 1 ('4' :: '2' :: []) ('b' :: [])) = .processError ('b' :: []) ∧
    objectiveResult (fun s => if s = ['4', '2'] then some (42:ℚ) else none)
        (.exited 1 ('4' :: '2' :: []) ('b' :: [])) = ⊥ := by
  have h := nonzero_exit_never_success
    (fun s => if s = ['4', '2'] then some (42:ℚ) else none)
    1 ('4' :: '2' :: []) ('b' :: []) (by decide)
  exact ⟨by rfl, h.1, h.2.2⟩

theorem insertDesc_perm (x : TrialRec) (l : List TrialRec) :
    (insertDesc x l).Perm (x :: l) := by
  induction l with
  | nil => exact List.Perm.refl _
  | cons y ys ih =>
    simp only [insertDesc]
    split
    · exact List.Perm.refl _
    · exact List.Perm.trans (List.Perm.cons y ih) (List.Perm.swap x y ys)

theorem sortDesc_perm (l : List TrialRec) : (sortDesc l).Perm l := by
  induction l with
  | nil => exact List.Perm.refl _
  | cons x xs ih =>
    exact List.Perm.trans (insertDesc_perm x (sortDesc xs)) (List.Perm.cons x ih)

theorem mem_insertDesc (z x : TrialRec) (l : List TrialRec) :
    z ∈ insertDesc x l ↔ z = x ∨ z ∈ l := by
  rw [(insertDesc_perm x l).mem_iff, List.mem_cons]

theorem insertDesc_pairwise (x : TrialRec) (l : List TrialRec)
    (hl : l.Pairwise rankedBefore)
    (hx : ∀ y ∈ l, x.number < y.number) :
    (insertDesc x l).Pairwise rankedBefore := by
  induction l with
  | nil => simp [insertDesc]
  | cons y ys ih =>
    simp only [insertDesc]
    rw [List.pairwise_cons] at hl
    split
    · next hle =>
      rw [List.pairwise_cons]
      refine ⟨?_, List.pairwise_cons.mpr hl⟩
      intro z hz
      rcases List.mem_cons.mp hz with rfl | hz'
      · rcases lt_or_eq_of_le hle with h2 | h2
        · exact Or.inl h2
        · exact Or.inr ⟨h2.symm, hx z (List.mem_cons_self z ys)⟩
      · rcases hl.1 z hz' with h1 | ⟨he, _⟩
        · exact Or.inl (lt_of_lt_of_le h1 hle)
        · rcases lt_or_eq_of_le hle with h2 | h2
          · exact Or.inl (lt_of_lt_of_le (lt_of_lt_of_le (lt_of_le_of_lt (le_of_eq he.symm) h2) le_rfl) le_rfl)
          · exact Or.inr ⟨h2.symm.trans he, hx z (List.mem_cons_of_mem y hz')⟩
    · next hgt =>
      rw [List.pairwise_cons]
      refine ⟨?_, ih hl.2 (fun w hw => hx w (List.mem_cons_of_mem y hw))⟩
      intro z hz
      rcases (mem_insertDesc z x ys).mp hz with rfl | hz'
      · exact Or.inl (lt_of_not_le hgt)
      · exact hl.1 z hz'

theorem sortDesc_pairwise (l : List TrialRec)
    (h : l.Pairwise (fun a b => a.number < b.number)) :
    (sortDesc l).Pairwise rankedBefore := by
  induction l with
  | nil => exact List.Pairwise.nil
  | cons x xs ih =>
    rw [List.pairwise_cons] at h
    exact insertDesc_pairwise x (sortDesc xs) (ih h.2)
      (fun y hy => h.1 y ((sortDesc_perm xs).mem_iff.mp hy))

/-- C7: the top-k listing is the first five of the completed records
stably sorted by fitness descending: the sorted list is a permutation of
the completed records and — when trial numbers ascend, as the store
enumerates them — consecutive entries either strictly descend in value
or are tied with ascending trial numbers (first seen wins). -/
theorem topTrials_spec (completed : List TrialRec)
    (h : completed.Pairwise (fun a b => a.number < b.number)) :
    topTrials completed = (sortDesc completed).take 5 ∧
    (sortDesc completed).Perm completed ∧
    (sortDesc completed).Pairwise rankedBefore :=
  ⟨rfl, sortDesc_perm completed, sortDesc_pairwise completed h⟩

/-- C7 witness: fitness values 10, 55.2, 3, 55.2, 90 at trial numbers
0–4: the best trial is number 4 and the top three are numbers 4, 1, 3,
the tie between trials 1 and 3 ordered by trial number. -/
theorem topTrials_spec_witness :
    (sortDesc exampleTrials).Pairwise rankedBefore ∧
    ((topTrials exampleTrials).take 3).map (fun t => t.number) = [4, 1, 3] ∧
    (bestTrial exampleTrials).map (fun t => t.number) = some 4 := by
  have c1 : ¬ (((90 : ℚ) : WithBot ℚ) ≤ ((55.2 : ℚ) : WithBot ℚ)) := by
    rw [WithBot.coe_le_coe]; norm_num
  have c2 : ¬ (((90 : ℚ) : WithBot ℚ) ≤ ((3 : ℚ) : WithBot ℚ)) := by
    rw [WithBot.coe_le_coe]; norm_num
  have c3 : ¬ (((55.2 : ℚ) : WithBot ℚ) ≤ ((3 : ℚ) : WithBot ℚ)) := by
    rw [WithBot.coe_le_coe]; norm_num
  have c4 : ((55.2 : ℚ) : WithBot ℚ) ≤ ((55.2 : ℚ) : WithBot ℚ) := le_refl _
  have c5 : ¬ (((90 : ℚ) : WithBot ℚ) ≤ ((10 : ℚ) : WithBot ℚ)) := by
    rw [WithBot.coe_le_coe]; norm_num
  have c6 : ¬ (((55.2 : ℚ) : WithBot ℚ) ≤ ((10 : ℚ) : WithBot ℚ)) := by
    rw [WithBot.coe_le_coe]; norm_num
  have c7 : ((3 : ℚ) : WithBot ℚ) ≤ ((10 : ℚ) : WithBot ℚ) := by
    rw [WithBot.coe_le_coe]; norm_num
  have hsorted : sortDesc exampleTrials =
      [⟨4, .complete, ((90 : ℚ) : WithBot ℚ), 4, 5⟩,
       ⟨1, .complete, ((55.2 : ℚ) : WithBot ℚ), 1, 2⟩,
       ⟨3, .complete, ((55.2 : ℚ) : WithBot ℚ), 3, 4⟩,
       ⟨0, .complete, ((10 : ℚ) : WithBot ℚ), 0, 1⟩,
       ⟨2, .complete, ((3 : ℚ) : WithBot ℚ), 2, 3⟩] := by
    simp only [exampleTrials, sortDesc, insertDesc, if_neg c1, if_neg c2,
      if_neg c3, if_pos c4, if_neg c5, if_neg c6, if_pos c7]
  refine ⟨(topTrials_spec exampleTrials ?_).2.2, ?_, ?_⟩
  · simp [exampleTrials, List.pairwise_cons]
  · rw [topTrials, hsorted]
    rfl
  · rw [bestTrial, hsorted]
    rfl

/-- C6 counterexample: a trial whose evaluation timed out is recorded —
with the sentinel fitness the objective returned — in the COMPLETE
state, so the monitor counts it in the completed partition; the claim
that only Success outcomes are completed fails. -/
theorem completed_includes_timeout :
    recordOf 0 0 1 .timedOut ∈ monitorCompleted [recordOf 0 0 1 .timedOut] := by
  decide

/-- C6 (amended): the monitor's completed partition consists exactly of
the records in the COMPLETE state; because the evaluator converts
Timeout, ProcessError and ParseError into a returned sentinel value,
every evaluated trial — whatever its outcome — is recorded COMPLETE and
appears in the completed partition. -/
theorem completed_are_complete_state (trials : List TrialRec)
    (n : ℕ) (t0 t1 : ℚ) (o : TrialOutcome)
    (h : recordOf n t0 t1 o ∈ trials) :
    recordOf n t0 t1 o ∈ monitorCompleted trials ∧
    ∀ t ∈ monitorCompleted trials, t ∈ trials ∧ t.state = .complete := by
  constructor
  · exact List.mem_filter.mpr ⟨h, by simp [recordOf]⟩
  · intro t ht
    refine ⟨(List.mem_filter.mp ht).1, ?_⟩
    have h2 := (List.mem_filter.mp ht).2
    simpa using h2

/-- C6 amended witness. -/
theorem completed_are_complete_state_witness :
    recordOf 3 0 2 (.processError []) ∈
      monitorCompleted [recordOf 3 0 2 (.processError [])] :=
  (completed_are_complete_state [recordOf 3 0 2 (.processError [])] 3 0 2
    (.processError []) (List.mem_singleton.mpr rfl)).1

/-- C8: the monitor's ETA equals `(200 − completed) × mean duration`
over the trailing window of the last ten (or fewer) completed records,
and is undefined exactly when fewer than two records are completed —
defined from the second completion on. -/
theorem monitorEta_spec (completed : List TrialRec) :
    monitorEta completed = etaSpec completed := by
  have hlen : (lastTen completed).length =
      completed.length - (completed.length - 10) := by
    rw [lastTen, List.length_drop]
  by_cases h : 1 < completed.length
  · rw [monitorEta, if_pos h, if_pos (by rw [hlen]; omega), etaSpec,
      if_pos (by omega)]
  · rw [monitorEta, if_neg h, etaSpec, if_neg (by omega)]

/-- C10 counterexample: at 201 completed trials — more than 200 — the
monitor's percent is exactly 100, so percent does not exceed 100 as the
claim states. -/
theorem percent_at_201 :
    200 < 201 ∧ monitorPercent 201 = 100 ∧ ¬ 100 < monitorPercent 201 := by
  decide

/-- C10 (amended): the monitor reckons progress against the fixed
200-trial target, so past 200 completed trials the remaining count is
negative, the ETA is negative whenever the window's mean duration is
positive, and the percent is at least 100 — strictly exceeding 100 from
202 completions on. -/
theorem monitor_fixed_target (completed : List TrialRec)
    (h : 200 < completed.length) :
    monitorRemaining completed.length < 0 ∧
    100 ≤ monitorPercent completed.length ∧
    (202 ≤ completed.length → 100 < monitorPercent completed.length) ∧
    (0 < meanDuration (lastTen completed) →
      ∃ e, monitorEta completed = some e ∧ e < 0) := by
  refine ⟨?_, ?_, ?_, ?_⟩
  · rw [monitorRemaining]; omega
  · rw [monitorPercent]; omega
  · intro h2; rw [monitorPercent]; omega
  · intro hpos
    refine ⟨(200 - (completed.length : ℚ)) * meanDuration (lastTen completed),
      ?_, ?_⟩
    · rw [monitorEta, if_pos (by omega),
        if_pos (by rw [lastTen, List.length_drop]; omega)]
    · apply mul_neg_of_neg_of_pos _ hpos
      have hq : (200 : ℚ) < (completed.length : ℚ) := by exact_mod_cast h
      linarith

/-- C10 amended witness: 201 identical one-second trials. -/
theorem monitor_fixed_target_witness :
    monitorRemaining (List.replicate 201
        (⟨0, .complete, ⊥, 0, 1⟩ : TrialRec)).length < 0 ∧
    ∃ e, monitorEta (List.replicate 201
        (⟨0, .complete, ⊥, 0, 1⟩ : TrialRec)) = some e ∧ e < 0 := by
  have h := monitor_fixed_target
    (List.replicate 201 (⟨0, .complete, ⊥, 0, 1⟩ : TrialRec))
    (by rw [List.length_replicate]; omega)
  refine ⟨h.1, h.2.2.2 ?_⟩
  have hdrop : lastTen (List.replicate 201 (⟨0, .complete, ⊥, 0, 1⟩ : TrialRec)) =
      List.replicate 10 (⟨0, .complete, ⊥, 0, 1⟩ : TrialRec) := by
    rw [lastTen, List.length_replicate, List.drop_replicate]
  rw [hdrop, meanDuration]
  norm_num [List.map_replicate, List.sum_replicate]

/-- C9: `min_species_count` is the third suggestion of the objective,
its declared upper bound is `max 2 (species_count // 3)` recomputed from
the already sampled `species_count` (the first suggestion), parameter
names occur once each so it is never requested before `species_count`,
and a sampled `species_count` of 6 yields declared upper bound 2. -/
theorem min_species_bound (sampler : String → ℕ) :
    (objectiveCalls sampler).get? 0 = some ⟨"species_count", .intR 4 30⟩ ∧
    (objectiveCalls sampler).get? 2 = some ⟨"min_species_count",
      .intR 2 (max 2 (sampler "species_count" / 3))⟩ ∧
    (objectiveCalls sampler).findIdx (fun c => c.name == "species_count") = 0 ∧
    (objectiveCalls sampler).findIdx
      (fun c => c.name == "min_species_count") = 2 ∧
    ((objectiveCalls sampler).map (fun c => c.name)).Nodup ∧
    (sampler "species_count" = 6 →
      (objectiveCalls sampler).get? 2 =
        some ⟨"min_species_count", .intR 2 2⟩) := by
  refine ⟨rfl, rfl, rfl, rfl, ?_, ?_⟩
  · have hnames : (objectiveCalls sampler).map (fun c => c.name) =
        ["species_count", "individuals_per_species", "min_species_count",
         "elites", "tournament_size", "parent_pool_percentage",
         "grace_generations", "stagnation_threshold",
         "species_diversity_threshold", "relative_performance_threshold",
         "weight_jitter", "weight_jitter_stddev", "weight_reset",
         "weight_l1_shrink", "l1_shrink_factor", "activation_swap",
         "node_param_mutate", "node_param_stddev", "edge_add",
         "edge_delete_random", "edge_split", "edge_redirect", "edge_swap",
         "weak_edge_pruning_enabled", "weak_edge_pruning_threshold",
         "weak_edge_pruning_base_rate", "weak_edge_pruning_on_birth",
         "weak_edge_pruning_during_evolution"] := rfl
    rw [hnames]
    decide
  · intro h6
    rw [objectiveCalls, h6]
    decide

/-- C9 witness: a sampler answering 6 everywhere. -/
theorem min_species_bound_witness :
    (objectiveCalls (fun _ => 6)).get? 2 =
      some ⟨"min_species_count", .intR 2 2⟩ :=
  (min_species_bound (fun _ => 6)).2.2.2.2.2 rfl

end Evolvatron
